import Mathlib

/-!
Verification of the release-pending repository's version-inference and caching core.

The definitions below are shallow embeddings of the TypeScript source:

* `CachingAsyncIterable` and `iterate` embed `src/caching-async-iterable.ts`
  (`CachingAsyncGenerator` in `src/caching-async-generator.ts` shares the exact
  same iteration logic).  The one-shot underlying producer is modelled as a
  finite script of pull outcomes (`Except ε α`): pulling consumes the head of
  the script, and an empty script means the producer reports completion.
* `Releases.find` / `Releases.findLastDraft` embed `src/releases.ts`.
* `messageImpact` / `maxImpact` embed `src/conventional-commits.ts`, with the
  JavaScript regular expression for conventional-commit headers embedded as
  the deterministic matcher `parseConventional` over character lists.
* `Version` / `parseVersion` / `inferNextVersion` embed
  `src/versioning/version.ts` and the orchestrator's version computation.
* `prGenRun` embeds `createPullRequestsGenerator` from the pull-request
  fetcher, and `performAction` embeds the decision orchestrator.

Asynchrony is modelled sequentially: every claim under verification concerns
sequential use (one cursor at a time), so an iteration is a pure function from
the shared mutable state to the yielded items plus the updated state.
-/

/-- Shared state of a `CachingAsyncIterable` (and of the identically coded
`CachingAsyncGenerator`): the growable buffer of already-fetched items, the
exhaustion flag, and the remaining script of the one-shot underlying producer.
Each script entry is what one `await source.next()` delivers: a value
(`Except.ok`) or a rejection (`Except.error`); an empty script means the
producer reports `done` on the next pull. -/
structure CachingAsyncIterable (ε α : Type) where
  cache : List α
  sourceExhausted : Bool
  source : List (Except ε α)
  deriving Repr

/-- Outcome of running one iteration cursor over a caching sequence: either the
cursor stopped normally (its item budget was reached or the producer reported
done), or a pull from the underlying producer failed and the error propagated
to the cursor.  Both record the items yielded to this cursor and the updated
shared state. -/
inductive IterOutcome (ε α : Type) where
  | stopped : List α → CachingAsyncIterable ε α → IterOutcome ε α
  | failed : ε → List α → CachingAsyncIterable ε α → IterOutcome ε α
  deriving Repr

/-- Decrement an optional item budget; `none` is an unlimited budget. -/
def decBudget : Option Nat → Option Nat
  | Option.none => Option.none
  | some n => some (n - 1)

/-- The pull phase of `[Symbol.asyncIterator]` in `caching-async-iterable.ts`
(lines 182-195): while the source is not exhausted, await the next pull; a
`done` result sets the exhaustion flag and returns; a value is appended to the
cache and then yielded; a rejection propagates without touching the cache or
the exhaustion flag.  `budget` is how many more items the consuming cursor
will accept before breaking out of its `for await` loop. -/
def pullLoop {ε α : Type} : Option Nat → List α → List (Except ε α) → IterOutcome ε α
  | some 0, cache, script => .stopped [] ⟨cache, false, script⟩
  | _, cache, [] => .stopped [] ⟨cache, true, []⟩
  | _, cache, .error e :: rest => .failed e [] ⟨cache, false, rest⟩
  | budget, cache, .ok a :: rest =>
    match pullLoop (decBudget budget) (cache ++ [a]) rest with
    | .stopped items s => .stopped (a :: items) s
    | .failed e items s => .failed e (a :: items) s

/-- Prefix the items yielded by an iteration outcome with the replayed items. -/
def IterOutcome.prepend {ε α : Type} (pre : List α) : IterOutcome ε α → IterOutcome ε α
  | .stopped items s => .stopped (pre ++ items) s
  | .failed e items s => .failed e (pre ++ items) s

/-- One cursor's run over the caching sequence, embedding
`[Symbol.asyncIterator]`: first replay all cached values (a cursor whose
budget is met during replay breaks there and touches nothing), then, if the
source is not exhausted, run the pull loop.  `budget = none` is a full
iteration (the consumer never breaks). -/
def iterate {ε α : Type} (budget : Option Nat) (s : CachingAsyncIterable ε α) :
    IterOutcome ε α :=
  match budget with
  | some n =>
    if n ≤ s.cache.length then .stopped (s.cache.take n) s
    else if s.sourceExhausted then .stopped s.cache s
    else (pullLoop (some (n - s.cache.length)) s.cache s.source).prepend s.cache
  | Option.none =>
    if s.sourceExhausted then .stopped s.cache s
    else (pullLoop Option.none s.cache s.source).prepend s.cache

lemma pullLoop_ok_unbounded {ε α : Type} (items : List α) :
    ∀ cache : List α,
      pullLoop (ε := ε) Option.none cache (items.map .ok) =
        .stopped items ⟨cache ++ items, true, []⟩ := by
  induction items with
  | nil => intro cache; simp [pullLoop]
  | cons a rest ih =>
      intro cache
      simp only [List.map_cons, pullLoop, decBudget, ih (cache ++ [a])]
      simp

lemma pullLoop_ok_le {ε α : Type} (n : Nat) (items : List α) (h : n ≤ items.length) :
    ∀ cache : List α,
      pullLoop (ε := ε) (some n) cache (items.map .ok) =
        .stopped (items.take n) ⟨cache ++ items.take n, false, (items.drop n).map .ok⟩ := by
  induction items generalizing n with
  | nil =>
      intro cache
      obtain rfl : n = 0 := by simpa using h
      simp [pullLoop]
  | cons a rest ih =>
      intro cache
      match n with
      | 0 => simp [pullLoop]
      | Nat.succ m =>
          have hm : m ≤ rest.length := by simpa using h
          simp only [List.map_cons, pullLoop, decBudget, Nat.succ_sub_one,
            ih m hm (cache ++ [a])]
          simp

lemma pullLoop_ok_gt {ε α : Type} (n : Nat) (items : List α) (h : items.length < n) :
    ∀ cache : List α,
      pullLoop (ε := ε) (some n) cache (items.map .ok) =
        .stopped items ⟨cache ++ items, true, []⟩ := by
  induction items generalizing n with
  | nil =>
      intro cache
      match n with
      | Nat.succ m => simp [pullLoop]
  | cons a rest ih =>
      intro cache
      match n with
      | Nat.succ m =>
          have hm : rest.length < m := by
            simpa [Nat.succ_lt_succ_iff] using h
          have hm0 : m ≠ 0 := by omega
          match m, hm, hm0 with
          | Nat.succ k, hk, _ =>
              simp only [List.map_cons, pullLoop, decBudget, Nat.succ_sub_one,
                ih (Nat.succ k) hk (cache ++ [a])]
              simp

/-- C1.  Caching sequence replay: over any underlying producer of `items`,
partially iterating to `n` items and then performing a full iteration yields
exactly the same first `n` items followed by the remaining items; the script
component of the state tracks the producer linearly, so the partial iteration
consumes exactly the first `min n |items|` pulls and the full iteration
consumes exactly the remainder — at most one pull per distinct item.  After
exhaustion a repeated full iteration returns the identical sequence with the
state (hence the producer) untouched: zero additional pulls. -/
theorem caching_sequence_replay {ε α : Type} (items : List α) (n : Nat) :
    ∃ b1 : Bool,
      iterate (ε := ε) (some n) ⟨[], false, items.map .ok⟩ =
        .stopped (items.take n) ⟨items.take n, b1, (items.drop n).map .ok⟩ ∧
      iterate (ε := ε) Option.none ⟨items.take n, b1, (items.drop n).map .ok⟩ =
        .stopped (items.take n ++ items.drop n) ⟨items, true, []⟩ ∧
      iterate (ε := ε) Option.none ⟨items, true, []⟩ =
        .stopped items ⟨items, true, []⟩ := by
  by_cases h : n ≤ items.length
  · refine ⟨false, ?_, ?_, ?_⟩
    · by_cases h0 : n = 0
      · subst h0; simp [iterate]
      · simp only [iterate, List.length_nil, Nat.le_zero, h0, if_false,
          Bool.false_eq_true, Nat.sub_zero]
        rw [pullLoop_ok_le n items h]
        simp [IterOutcome.prepend]
    · simp only [iterate, Bool.false_eq_true, if_false]
      rw [pullLoop_ok_unbounded]
      simp [IterOutcome.prepend]
    · simp [iterate]
  · push_neg at h
    have htake : items.take n = items := List.take_of_length_le (Nat.le_of_lt h)
    have hdrop : items.drop n = [] := List.drop_eq_nil_of_le (Nat.le_of_lt h)
    refine ⟨true, ?_, ?_, ?_⟩
    · have h0 : ¬ n = 0 := by omega
      simp only [iterate, List.length_nil, Nat.le_zero, h0, if_false,
        Bool.false_eq_true, Nat.sub_zero]
      rw [pullLoop_ok_gt n items h]
      simp [IterOutcome.prepend, htake, hdrop]
    · simp [iterate, htake, hdrop]
    · simp [iterate]

/-- C9.  If a pull from the underlying producer fails, the exhaustion flag
remains `false`, the error propagates to the cursor that was awaiting the
item, the cached buffer is unchanged, and a subsequent iteration replays the
cache and retries the pull — here retrying successfully through the rest of
the producer — rather than treating the source as exhausted. -/
theorem caching_sequence_error_no_poison {ε α : Type} (cache : List α) (e : ε)
    (items : List α) :
    iterate Option.none ⟨cache, false, .error e :: items.map .ok⟩ =
      .failed e cache ⟨cache, false, items.map .ok⟩ ∧
    iterate (ε := ε) Option.none ⟨cache, false, items.map .ok⟩ =
      .stopped (cache ++ items) ⟨cache ++ items, true, []⟩ := by
  constructor
  · simp [iterate, pullLoop, IterOutcome.prepend]
  · simp only [iterate, Bool.false_eq_true, if_false]
    rw [pullLoop_ok_unbounded]
    simp [IterOutcome.prepend]

/-- Domain entity for a forge release, from `mapRelease` in `src/releases.ts`:
identifier, tag name (`null` while draft), target branch, display name, body,
publish timestamp (`null` until published, modelled as an integer epoch),
draft flag, prerelease flag. -/
structure Release where
  id : Nat
  tagName : Option String
  targetCommitish : String
  name : Option String
  body : Option String
  publishedAt : Option Int
  draft : Bool
  prerelease : Bool
  deriving Repr, DecidableEq

/-- Constant `DEFAULT_PER_PAGE` from `src/releases.ts`. -/
def DEFAULT_PER_PAGE : Nat := 30

/-- Constant `MAX_PAGES` from `src/releases.ts`. -/
def MAX_PAGES : Nat := 5

/-- The pull phase of `Releases.find` (lines 55-68 of `src/releases.ts`): the
`for await` loop body applied to items fetched from the not-yet-exhausted
source.  Each pulled item is cached, then checked against the predicate
(found stops the search), then counted against `maxReleases` (reaching the
bound gives up with `null` before any further pull). -/
def findPull (p : Release → Bool) (maxReleases : Nat) {ε : Type} :
    Nat → List Release → List (Except ε Release) →
      Except ε (Option Release × CachingAsyncIterable ε Release)
  | _, cache, [] => .ok (Option.none, ⟨cache, true, []⟩)
  | _, _, .error e :: _ => .error e
  | count, cache, .ok a :: rest =>
    if p a then .ok (some a, ⟨cache ++ [a], false, rest⟩)
    else if maxReleases ≤ count + 1 then .ok (Option.none, ⟨cache ++ [a], false, rest⟩)
    else findPull p maxReleases (count + 1) (cache ++ [a]) rest

/-- The replay phase of `Releases.find`: the same loop body applied to the
already-cached items; when the replay is over, the loop continues by pulling
from the source unless it is exhausted. -/
def findReplay (p : Release → Bool) (maxReleases : Nat) {ε : Type} :
    Nat → List Release → CachingAsyncIterable ε Release →
      Except ε (Option Release × CachingAsyncIterable ε Release)
  | count, a :: rest, s =>
    if p a then .ok (some a, s)
    else if maxReleases ≤ count + 1 then .ok (Option.none, s)
    else findReplay p maxReleases (count + 1) rest s
  | count, [], s =>
    if s.sourceExhausted then .ok (Option.none, s)
    else findPull p maxReleases count s.cache s.source

/-- `Releases.find` from `src/releases.ts`: search the caching sequence for
the first release satisfying `p`, giving up after `maxReleases` items. -/
def Releases.find {ε : Type} (p : Release → Bool) (maxReleases : Nat)
    (s : CachingAsyncIterable ε Release) :
    Except ε (Option Release × CachingAsyncIterable ε Release) :=
  findReplay p maxReleases 0 s.cache s

/-- The first branch of the loop body of `Releases.findLastDraft`
(lines 31-41 of `src/releases.ts`): a draft, non-prerelease release whose
target matches is the one searched for. -/
def draftMatch (targetCommitish : String) (r : Release) : Bool :=
  r.draft && !r.prerelease && r.targetCommitish == targetCommitish

/-- The pull phase of `Releases.findLastDraft`: pulled items are cached, a
matching draft is returned, and the first non-draft item stops the search
with `null` (drafts are forge-ordered first). -/
def findLastDraftPull (targetCommitish : String) {ε : Type} :
    List Release → List (Except ε Release) →
      Except ε (Option Release × CachingAsyncIterable ε Release)
  | cache, [] => .ok (Option.none, ⟨cache, true, []⟩)
  | _, .error e :: _ => .error e
  | cache, .ok r :: rest =>
    if draftMatch targetCommitish r then .ok (some r, ⟨cache ++ [r], false, rest⟩)
    else if !r.draft then .ok (Option.none, ⟨cache ++ [r], false, rest⟩)
    else findLastDraftPull targetCommitish (cache ++ [r]) rest

/-- The replay phase of `Releases.findLastDraft`, continuing into the pull
phase when the cached items are exhausted. -/
def findLastDraftReplay (targetCommitish : String) {ε : Type} :
    List Release → CachingAsyncIterable ε Release →
      Except ε (Option Release × CachingAsyncIterable ε Release)
  | r :: rest, s =>
    if draftMatch targetCommitish r then .ok (some r, s)
    else if !r.draft then .ok (Option.none, s)
    else findLastDraftReplay targetCommitish rest s
  | [], s =>
    if s.sourceExhausted then .ok (Option.none, s)
    else findLastDraftPull targetCommitish s.cache s.source

/-- `Releases.findLastDraft` from `src/releases.ts`. -/
def Releases.findLastDraft {ε : Type} (targetCommitish : String)
    (s : CachingAsyncIterable ε Release) :
    Except ε (Option Release × CachingAsyncIterable ε Release) :=
  findLastDraftReplay targetCommitish s.cache s

lemma findLastDraftPull_ok (targetCommitish : String) {ε : Type} (items : List Release) :
    ∀ cache : List Release,
      ∃ s1 : CachingAsyncIterable ε Release,
        findLastDraftPull targetCommitish cache (items.map .ok) =
          .ok ((items.takeWhile (·.draft)).find?
                (fun r => !r.prerelease && r.targetCommitish == targetCommitish), s1) := by
  induction items with
  | nil => intro cache; exact ⟨⟨cache, true, []⟩, rfl⟩
  | cons r rest ih =>
      intro cache
      by_cases hd : r.draft
      · by_cases hp : (!r.prerelease && r.targetCommitish == targetCommitish) = true
        · refine ⟨⟨cache ++ [r], false, rest.map .ok⟩, ?_⟩
          simp [findLastDraftPull, draftMatch, hd, hp, List.takeWhile_cons]
        · obtain ⟨s1, hs1⟩ := ih (cache ++ [r])
          refine ⟨s1, ?_⟩
          simp only [List.map_cons, findLastDraftPull, draftMatch, hd, hp,
            Bool.true_and, if_false, Bool.not_true, Bool.false_eq_true, hs1]
          simp [List.takeWhile_cons, hd, List.find?_cons, hp]
      · refine ⟨⟨cache ++ [r], false, rest.map .ok⟩, ?_⟩
        simp [findLastDraftPull, draftMatch, hd, List.takeWhile_cons]

/-- C10.  `Releases.findLastDraft` never returns a prerelease: over any
release sequence and target branch, the search result is exactly the first
release in the leading run of drafts that is non-prerelease and matches the
target — so a prerelease draft is passed over and the search continues, and
the result is `null` exactly when that leading draft run contains no match,
that is, at the first non-draft release or at the end of the sequence.  Any
returned release is a draft, is not a prerelease, and targets the branch. -/
theorem findLastDraft_no_prerelease {ε : Type} (items : List Release)
    (targetCommitish : String) :
    (∃ s1 : CachingAsyncIterable ε Release,
      Releases.findLastDraft targetCommitish ⟨[], false, items.map .ok⟩ =
        .ok ((items.takeWhile (·.draft)).find?
              (fun r => !r.prerelease && r.targetCommitish == targetCommitish), s1)) ∧
    (∀ (r : Release) (s1 : CachingAsyncIterable ε Release),
      Releases.findLastDraft targetCommitish ⟨[], false, items.map .ok⟩ = .ok (some r, s1) →
        r.draft = true ∧ r.prerelease = false ∧ r.targetCommitish = targetCommitish) := by
  obtain ⟨s1, hs1⟩ := findLastDraftPull_ok (ε := ε) targetCommitish items []
  have hmain : Releases.findLastDraft (ε := ε) targetCommitish ⟨[], false, items.map .ok⟩ =
      .ok ((items.takeWhile (·.draft)).find?
            (fun r => !r.prerelease && r.targetCommitish == targetCommitish), s1) := by
    simpa [Releases.findLastDraft, findLastDraftReplay] using hs1
  refine ⟨⟨s1, hmain⟩, ?_⟩
  intro r s2 hr
  rw [hmain] at hr
  have heq : (items.takeWhile (·.draft)).find?
      (fun r => !r.prerelease && r.targetCommitish == targetCommitish) = some r := by
    have := congrArg (fun x => match x with
      | Except.ok (o, _) => o
      | Except.error _ => Option.none) hr
    simpa using this
  have hpred := List.find?_some heq
  have hmem := List.mem_of_find?_eq_some heq
  have hdraft : r.draft = true := by
    have := List.mem_takeWhile_imp hmem
    simpa using this
  simp only [Bool.and_eq_true, Bool.not_eq_true', beq_iff_eq] at hpred
  exact ⟨hdraft, hpred.1, hpred.2⟩

lemma flatten_length_of_uniform {α : Type} (l : List (List α)) (P : Nat)
    (h : ∀ x ∈ l, x.length = P) : l.flatten.length = l.length * P := by
  rw [List.length_flatten]
  have hrep : l.map List.length = List.replicate l.length P := by
    rw [List.eq_replicate_iff]
    constructor
    · simp
    · intro b hb
      obtain ⟨x, hx, rfl⟩ := List.mem_map.mp hb
      exact h x hx
  rw [hrep, List.sum_replicate, smul_eq_mul]

lemma findPull_no_match {ε : Type} (p : Release → Bool) (maxReleases : Nat) :
    ∀ (items : List Release) (count : Nat) (cache : List Release),
      count < maxReleases → maxReleases - count ≤ items.length →
      (∀ r ∈ items.take (maxReleases - count), p r = false) →
      findPull (ε := ε) p maxReleases count cache (items.map .ok) =
        .ok (Option.none,
          ⟨cache ++ items.take (maxReleases - count), false,
            (items.drop (maxReleases - count)).map .ok⟩) := by
  intro items
  induction items with
  | nil =>
      intro count cache hlt hle _
      simp only [List.length_nil, Nat.le_zero] at hle
      omega
  | cons a rest ih =>
      intro count cache hlt hle hno
      have hk : 0 < maxReleases - count := by omega
      have hpa : p a = false := by
        apply hno
        have : (a :: rest).take (maxReleases - count) = a :: rest.take (maxReleases - count - 1) := by
          match hmc : maxReleases - count, hk with
          | Nat.succ j, _ => simp
        rw [this]; exact List.mem_cons_self a _
      by_cases hone : maxReleases ≤ count + 1
      · have hmc : maxReleases - count = 1 := by omega
        simp [findPull, hpa, hone, hmc]
      · have hrec := ih (count + 1) (cache ++ [a]) (by omega)
          (by simp at hle ⊢; omega)
          (by
            intro r hr
            apply hno
            have hms : maxReleases - count = (maxReleases - (count + 1)) + 1 := by omega
            rw [hms, List.take_succ_cons]
            exact List.mem_cons_of_mem a hr)
        have hms : maxReleases - count = (maxReleases - (count + 1)) + 1 := by omega
        simp only [List.map_cons, findPull, hpa, Bool.false_eq_true, if_false, hone, hrec]
        rw [hms]
        simp [List.take_succ_cons, List.drop_succ_cons]

/-- C5.  Bounded release search: searching with a predicate over a fetcher
constructed with page size `P` gives `maxReleases = P * MAX_PAGES` (with
`MAX_PAGES = 5`, as in `fetchReleases`).  If no release in the first five
pages satisfies the predicate, `Releases.find` returns `null` having consumed
exactly the first `P * 5` items of the producer: the resulting source script
is exactly the contents of pages six onward, so no item beyond the `P * 5`-th
is ever pulled and — the page generator fetching a page only when one of its
items is pulled — no more than five pages are fetched from the forge. -/
theorem releases_find_page_bound {ε : Type} (P : Nat) (hP : 0 < P)
    (p : Release → Bool) (pages : List (List Release))
    (hsz : ∀ pg ∈ pages.take MAX_PAGES, pg.length = P)
    (hlong : MAX_PAGES < pages.length)
    (hno : ∀ r ∈ (pages.take MAX_PAGES).flatten, p r = false) :
    Releases.find (ε := ε) p (P * MAX_PAGES) ⟨[], false, pages.flatten.map .ok⟩ =
      .ok (Option.none,
        ⟨(pages.take MAX_PAGES).flatten, false,
          ((pages.drop MAX_PAGES).flatten).map .ok⟩) := by
  have hsplit : pages.flatten =
      (pages.take MAX_PAGES).flatten ++ (pages.drop MAX_PAGES).flatten := by
    rw [← List.flatten_append, List.take_append_drop]
  have htlen : (pages.take MAX_PAGES).length = MAX_PAGES :=
    List.length_take_of_le (Nat.le_of_lt hlong)
  have hAlen : (pages.take MAX_PAGES).flatten.length = P * MAX_PAGES := by
    rw [flatten_length_of_uniform _ P hsz, htlen, Nat.mul_comm]
  have hmax : 0 < P * MAX_PAGES := by
    have : (0:Nat) < MAX_PAGES := by decide
    exact Nat.mul_pos hP this
  have hle : P * MAX_PAGES - 0 ≤ pages.flatten.length := by
    rw [hsplit, List.length_append, hAlen]
    omega
  have htake : pages.flatten.take (P * MAX_PAGES) = (pages.take MAX_PAGES).flatten := by
    rw [hsplit]; exact List.take_left' hAlen
  have hdrop : pages.flatten.drop (P * MAX_PAGES) = (pages.drop MAX_PAGES).flatten := by
    rw [hsplit]; exact List.drop_left' hAlen
  have hno' : ∀ r ∈ pages.flatten.take (P * MAX_PAGES - 0), p r = false := by
    rw [Nat.sub_zero, htake]; exact hno
  have := findPull_no_match (ε := ε) p (P * MAX_PAGES) pages.flatten 0 [] hmax
    (by simpa using hle) hno'
  simp only [Nat.sub_zero, List.nil_append] at this
  rw [Releases.find]
  simp only [findReplay, Bool.false_eq_true, if_false, this, htake, hdrop]

/-- Concrete published release used by witnesses. -/
def sampleRelease (n : Nat) : Release :=
  ⟨n, some "v1.0.0", "main", Option.none, Option.none, some 0, false, false⟩

/-- Concrete draft release used by witnesses. -/
def sampleDraft : Release :=
  ⟨7, Option.none, "main", Option.none, Option.none, Option.none, true, false⟩

/-- Six one-item pages of non-matching releases, for the C5 witness. -/
def samplePages : List (List Release) :=
  [[sampleRelease 0], [sampleRelease 1], [sampleRelease 2], [sampleRelease 3],
    [sampleRelease 4], [sampleRelease 5]]

/-- Witness for C5 at page size 1 and six staged pages of non-matching
releases: the search returns `null` with exactly the first five pages
consumed and the sixth page's items still unpulled in the source. -/
theorem releases_find_page_bound_witness :
    Releases.find (ε := Unit) (fun _ => false) (1 * MAX_PAGES)
        ⟨[], false, samplePages.flatten.map .ok⟩ =
      .ok (Option.none,
        ⟨(samplePages.take MAX_PAGES).flatten, false,
          ((samplePages.drop MAX_PAGES).flatten).map .ok⟩) :=
  releases_find_page_bound 1 (by decide) (fun _ => false) samplePages
    (by decide) (by decide) (by decide)

/-- Witness for C10: on a sequence whose first release is a matching draft,
the returned release is a draft, not a prerelease, and targets the branch. -/
theorem findLastDraft_no_prerelease_witness :
    sampleDraft.draft = true ∧ sampleDraft.prerelease = false ∧
      sampleDraft.targetCommitish = "main" :=
  (findLastDraft_no_prerelease (ε := Unit) [sampleDraft] "main").2 sampleDraft
    ⟨[sampleDraft], false, []⟩ rfl

/-- Version impact classification: the `VersionIncrement` string union
`"major" | "minor" | "patch" | "none"` from `src/versions.ts`. -/
inductive VersionIncrement where
  | none
  | patch
  | minor
  | major
  deriving Repr, DecidableEq

/-- The JavaScript regular-expression character class for whitespace, used by
`String.prototype.trim` and by the pattern class written backslash-s:
ASCII whitespace, no-break space, the Unicode space separators, the line
separators, and the byte-order mark. -/
def jsWhitespace (c : Char) : Bool :=
  c = ' ' || c = '\t' || c = '\n' || c = '\r' || c.val = 11 || c.val = 12 ||
  c.val = 0xa0 || c.val = 0x1680 || (0x2000 ≤ c.val && c.val ≤ 0x200a) ||
  c.val = 0x2028 || c.val = 0x2029 || c.val = 0x202f || c.val = 0x205f ||
  c.val = 0x3000 || c.val = 0xfeff

/-- `String.prototype.trim` over the character list. -/
def trimChars (l : List Char) : List Char :=
  ((l.dropWhile jsWhitespace).reverse.dropWhile jsWhitespace).reverse

/-- `String.prototype.includes` over character lists: some suffix of `l`
starts with `pat`. -/
def containsChars (pat : List Char) : List Char → Bool
  | [] => pat.isPrefixOf []
  | c :: cs => pat.isPrefixOf (c :: cs) || containsChars pat cs

lemma containsChars_iff (pat l : List Char) : containsChars pat l = true ↔ pat <:+: l := by
  induction l with
  | nil =>
      simp only [containsChars, List.isPrefixOf_iff_prefix]
      constructor
      · intro h; exact h.isInfix
      · intro h
        have hnil : pat = [] := List.eq_nil_of_infix_nil h
        simp [hnil]
  | cons c cs ih =>
      simp only [containsChars, Bool.or_eq_true, List.isPrefixOf_iff_prefix, ih,
        List.infix_cons_iff]

lemma dropWhile_ne_nil_iff {α : Type} (p : α → Bool) (l : List α) :
    l.dropWhile p ≠ [] ↔ ∃ c ∈ l, p c = false := by
  rw [ne_eq, List.dropWhile_eq_nil_iff]
  push_neg
  constructor
  · rintro ⟨c, hc, hp⟩; exact ⟨c, hc, by simpa using hp⟩
  · rintro ⟨c, hc, hp⟩; exact ⟨c, hc, by simp [hp]⟩

lemma takeWhile_append_cons {α : Type} (p : α → Bool) (xs : List α) (y : α) (ys : List α)
    (hxs : ∀ x ∈ xs, p x = true) (hy : p y = false) :
    (xs ++ y :: ys).takeWhile p = xs ∧ (xs ++ y :: ys).dropWhile p = y :: ys := by
  induction xs with
  | nil => simp [List.takeWhile_cons, List.dropWhile_cons, hy]
  | cons x xs ih =>
      have hx : p x = true := hxs x (List.mem_cons_self x xs)
      have hrest := ih (fun z hz => hxs z (List.mem_cons_of_mem x hz))
      simp [List.takeWhile_cons, List.dropWhile_cons, hx, hrest.1, hrest.2]

/-- Lowercase letter class of the conventional-commit type capture. -/
def isLowerAlpha (c : Char) : Bool := 'a' ≤ c && c ≤ 'z'

/-- The tail of the conventional-commit pattern after the type and optional
scope: an optional bang, a colon, then any whitespace followed by at least
one non-whitespace character (the pattern is unanchored at the end, so only
a prefix of the remainder must match).  Returns whether the bang was
present. -/
def matchTail : List Char → Option Bool
  | '!' :: ':' :: rest =>
    if (rest.dropWhile jsWhitespace).isEmpty then Option.none else some true
  | ':' :: rest =>
    if (rest.dropWhile jsWhitespace).isEmpty then Option.none else some false
  | _ => Option.none

/-- Deterministic embedding of the JavaScript regular expression used by
`messageImpact` (one or more lowercase letters, an optional parenthesized
scope that cannot contain a closing parenthesis, an optional bang, a colon,
then at least one non-whitespace character).  The regex is anchored at the
start; its backtracking never helps (the type capture is the maximal
lowercase run, the scope can only end at the first closing parenthesis, and
the fallback to an empty scope always fails on the opening parenthesis), so
the greedy left-to-right scan below is its exact behavior.  Returns the type
capture and whether the bang matched. -/
def parseConventional (l : List Char) : Option (List Char × Bool) :=
  let ty := l.takeWhile isLowerAlpha
  let r1 := l.dropWhile isLowerAlpha
  if ty.isEmpty then Option.none
  else
    match r1 with
    | '(' :: r2 =>
      match r2.dropWhile (fun c => c != ')') with
      | ')' :: r3 => (matchTail r3).map (fun b => (ty, b))
      | _ => Option.none
    | _ => (matchTail r1).map (fun b => (ty, b))

/-- The trimmed first line of the message, as in the source's
`message.split` on the newline followed by `trim` of the head. -/
def trimmedFirstLine (message : String) : List Char :=
  trimChars (message.data.takeWhile (fun c => c != '\n'))

/-- `messageImpact` from `src/conventional-commits.ts`: empty or whitespace
input is `none`; a breaking-change marker anywhere is `major`; otherwise the
trimmed first line is matched against the conventional-commit pattern, with
no match `none`, a bang `major`, type `feat` `minor`, type `fix` `patch`,
and anything else `none`. -/
def messageImpact (message : String) : VersionIncrement :=
  if (trimChars message.data).isEmpty then .none
  else if containsChars ("BREAKING CHANGE:".data) message.data ||
      containsChars ("BREAKING-CHANGE:".data) message.data then .major
  else
    match parseConventional (trimmedFirstLine message) with
    | Option.none => .none
    | some (ty, hasBreakingMarker) =>
      if hasBreakingMarker then .major
      else if ty = "feat".data then .minor
      else if ty = "fix".data then .patch
      else .none

/-- The loop of `maxImpact` from `src/conventional-commits.ts`: short-circuit
on `major`, otherwise keep the running maximum under
`major > minor > patch > none`. -/
def maxImpactLoop (currentMax : VersionIncrement) : List VersionIncrement → VersionIncrement
  | [] => currentMax
  | impact :: rest =>
    match impact with
    | .major => .major
    | .minor =>
      match currentMax with
      | .none => maxImpactLoop .minor rest
      | .patch => maxImpactLoop .minor rest
      | _ => maxImpactLoop currentMax rest
    | .patch =>
      match currentMax with
      | .none => maxImpactLoop .patch rest
      | _ => maxImpactLoop currentMax rest
    | .none => maxImpactLoop currentMax rest

/-- `maxImpact` from `src/conventional-commits.ts` (an empty collection gives
`none`, which is also the loop's initial running maximum). -/
def maxImpact (impacts : List VersionIncrement) : VersionIncrement :=
  maxImpactLoop .none impacts

/-- Declarative reading of the spec's conventional-commit pattern sentence:
the line is a nonempty lowercase type, an optional parenthesized (possibly
empty) scope, an optional bang exactly when `bang`, a colon, and a remainder
containing at least one non-whitespace character. -/
def MatchesConventional (l : List Char) (ty : List Char) (bang : Bool) : Prop :=
  ∃ scope rest : List Char,
    l = ty ++ scope ++ (if bang then ['!'] else []) ++ ':' :: rest ∧
    ty ≠ [] ∧ (∀ c ∈ ty, isLowerAlpha c = true) ∧
    (scope = [] ∨ ∃ inner : List Char, scope = '(' :: (inner ++ [')']) ∧
      ∀ c ∈ inner, c ≠ ')') ∧
    ∃ c ∈ rest, jsWhitespace c = false

lemma matchTail_some (r : List Char) (b : Bool) (h : matchTail r = some b) :
    ∃ rest : List Char, r = (if b then ['!'] else []) ++ ':' :: rest ∧
      ∃ c ∈ rest, jsWhitespace c = false := by
  rw [matchTail.eq_def] at h
  split at h
  · rename_i rest
    split at h
    · exact absurd h (by simp)
    · rename_i hne
      obtain rfl : b = true := by simpa using h.symm
      refine ⟨rest, by simp, ?_⟩
      rw [← dropWhile_ne_nil_iff jsWhitespace rest]
      simpa [List.isEmpty_iff] using hne
  · rename_i rest
    split at h
    · exact absurd h (by simp)
    · rename_i hne
      obtain rfl : b = false := by simpa using h.symm
      refine ⟨rest, by simp, ?_⟩
      rw [← dropWhile_ne_nil_iff jsWhitespace rest]
      simpa [List.isEmpty_iff] using hne
  · exact absurd h (by simp)

lemma matchTail_complete (b : Bool) (rest : List Char)
    (hc : ∃ c ∈ rest, jsWhitespace c = false) :
    matchTail ((if b then ['!'] else []) ++ ':' :: rest) = some b := by
  have hne : rest.dropWhile jsWhitespace ≠ [] := (dropWhile_ne_nil_iff _ _).mpr hc
  cases b
  · cases rest with
    | nil => simp at hne
    | cons c cs => simp [matchTail, List.isEmpty_iff, hne]
  · simp [matchTail, List.isEmpty_iff, hne]

lemma parseConventional_sound (l ty : List Char) (b : Bool)
    (h : parseConventional l = some (ty, b)) : MatchesConventional l ty b := by
  have hsplit := List.takeWhile_append_dropWhile isLowerAlpha l
  rw [parseConventional.eq_def] at h
  dsimp only at h
  split at h
  · exact absurd h (by simp)
  · rename_i hne
    split at h
    · rename_i r2 hr1
      split at h
      · rename_i r3 hr2
        obtain ⟨b0, hb0, hpair⟩ := Option.map_eq_some'.mp h
        have hty : l.takeWhile isLowerAlpha = ty := congrArg Prod.fst hpair
        have hb : b0 = b := congrArg Prod.snd hpair
        subst hb
        obtain ⟨rest, hrest, hcrest⟩ := matchTail_some r3 b0 hb0
        have hr2split := List.takeWhile_append_dropWhile (fun c => c != ')') r2
        rw [hr2] at hr2split
        refine ⟨'(' :: (r2.takeWhile (fun c => c != ')') ++ [')']), rest, ?_, ?_, ?_, ?_,
          hcrest⟩
        · calc l = l.takeWhile isLowerAlpha ++ l.dropWhile isLowerAlpha := hsplit.symm
            _ = ty ++ ('(' :: r2) := by rw [hty, hr1]
            _ = ty ++ ('(' :: (r2.takeWhile (fun c => c != ')') ++ ')' :: r3)) := by
                rw [hr2split]
            _ = _ := by rw [hrest]; simp [List.append_assoc]
        · rw [← hty]; simpa [List.isEmpty_iff] using hne
        · intro c hc; rw [← hty] at hc; exact List.mem_takeWhile_imp hc
        · right
          refine ⟨r2.takeWhile (fun c => c != ')'), rfl, ?_⟩
          intro c hc
          have := List.mem_takeWhile_imp hc
          simpa using this
      · exact absurd h (by simp)
    · obtain ⟨b0, hb0, hpair⟩ := Option.map_eq_some'.mp h
      have hty : l.takeWhile isLowerAlpha = ty := congrArg Prod.fst hpair
      have hb : b0 = b := congrArg Prod.snd hpair
      subst hb
      obtain ⟨rest, hrest, hcrest⟩ := matchTail_some _ b0 hb0
      refine ⟨[], rest, ?_, ?_, ?_, Or.inl rfl, hcrest⟩
      · calc l = l.takeWhile isLowerAlpha ++ l.dropWhile isLowerAlpha := hsplit.symm
          _ = ty ++ ((if b0 then ['!'] else []) ++ ':' :: rest) := by rw [hty, hrest]
          _ = _ := by simp
      · rw [← hty]; simpa [List.isEmpty_iff] using hne
      · intro c hc; rw [← hty] at hc; exact List.mem_takeWhile_imp hc

lemma parseConventional_complete (l ty : List Char) (b : Bool)
    (h : MatchesConventional l ty b) : parseConventional l = some (ty, b) := by
  obtain ⟨scope, rest, hl, hne, hlow, hscope, hc⟩ := h
  rcases hscope with rfl | ⟨inner, rfl, hinner⟩
  · have hl2 : l = ty ++ (if b then ['!'] else []) ++ ':' :: rest := by
      rw [hl]; simp [List.append_assoc]
    cases b
    · have hl3 : l = ty ++ ':' :: rest := by simpa using hl2
      have htd := takeWhile_append_cons isLowerAlpha ty ':' rest hlow (by decide)
      rw [← hl3] at htd
      rw [parseConventional.eq_def]
      dsimp only
      rw [htd.1, htd.2]
      have hmt := matchTail_complete false rest hc
      simp only [if_false, Bool.false_eq_true, List.nil_append] at hmt
      simp [List.isEmpty_iff, hne, hmt]
    · have hl3 : l = ty ++ '!' :: ':' :: rest := by simpa using hl2
      have htd := takeWhile_append_cons isLowerAlpha ty '!' (':' :: rest) hlow (by decide)
      rw [← hl3] at htd
      rw [parseConventional.eq_def]
      dsimp only
      rw [htd.1, htd.2]
      have hmt := matchTail_complete true rest hc
      simp only [if_true, List.cons_append, List.nil_append] at hmt
      simp [List.isEmpty_iff, hne, hmt]
  · have hl2 : l = ty ++ '(' :: (inner ++ ')' :: ((if b then ['!'] else []) ++ ':' :: rest)) := by
      rw [hl]; simp [List.append_assoc]
    have htd := takeWhile_append_cons isLowerAlpha ty '('
      (inner ++ ')' :: ((if b then ['!'] else []) ++ ':' :: rest)) hlow (by decide)
    rw [← hl2] at htd
    have hin := takeWhile_append_cons (fun x => x != ')') inner ')'
      ((if b then ['!'] else []) ++ ':' :: rest)
      (fun c hcm => by simpa using hinner c hcm) (by decide)
    have hmt := matchTail_complete b rest hc
    rw [parseConventional.eq_def]
    dsimp only
    rw [htd.1, htd.2]
    simp [List.isEmpty_iff, hne, hin.2, hmt]

theorem messageImpact_classification (m : String) :
    (trimChars m.data = [] → messageImpact m = VersionIncrement.none) ∧
    (trimChars m.data ≠ [] →
      ("BREAKING CHANGE:".data <:+: m.data ∨ "BREAKING-CHANGE:".data <:+: m.data) →
      messageImpact m = VersionIncrement.major) ∧
    (trimChars m.data ≠ [] →
      ¬ "BREAKING CHANGE:".data <:+: m.data →
      ¬ "BREAKING-CHANGE:".data <:+: m.data →
      ((∀ (ty : List Char) (b : Bool), ¬ MatchesConventional (trimmedFirstLine m) ty b) →
          messageImpact m = VersionIncrement.none) ∧
      (∀ ty : List Char, MatchesConventional (trimmedFirstLine m) ty true →
          messageImpact m = VersionIncrement.major) ∧
      (MatchesConventional (trimmedFirstLine m) "feat".data false →
          messageImpact m = VersionIncrement.minor) ∧
      (MatchesConventional (trimmedFirstLine m) "fix".data false →
          messageImpact m = VersionIncrement.patch) ∧
      (∀ ty : List Char, MatchesConventional (trimmedFirstLine m) ty false →
          ty ≠ "feat".data → ty ≠ "fix".data →
          messageImpact m = VersionIncrement.none)) := by
  refine ⟨?_, ?_, ?_⟩
  · intro h
    simp [messageImpact, List.isEmpty_iff, h]
  · intro hne hbrk
    have hor : (containsChars ("BREAKING CHANGE:".data) m.data ||
        containsChars ("BREAKING-CHANGE:".data) m.data) = true := by
      rcases hbrk with h | h
      · simp [containsChars_iff, h]
      · simp [containsChars_iff, h]
    simp [messageImpact, List.isEmpty_iff, hne, hor]
  · intro hne hb1 hb2
    have hc1 : containsChars ("BREAKING CHANGE:".data) m.data = false := by
      rw [Bool.eq_false_iff]
      intro hx; exact hb1 ((containsChars_iff _ _).mp hx)
    have hc2 : containsChars ("BREAKING-CHANGE:".data) m.data = false := by
      rw [Bool.eq_false_iff]
      intro hx; exact hb2 ((containsChars_iff _ _).mp hx)
    refine ⟨?_, ?_, ?_, ?_, ?_⟩
    · intro hnm
      cases hP : parseConventional (trimmedFirstLine m) with
      | none => simp [messageImpact, List.isEmpty_iff, hne, hc1, hc2, hP]
      | some v =>
          exact absurd (parseConventional_sound _ v.1 v.2 (by simpa using hP))
            (hnm v.1 v.2)
    · intro ty hm
      have hP := parseConventional_complete _ ty true hm
      simp [messageImpact, List.isEmpty_iff, hne, hc1, hc2, hP]
    · intro hm
      have hP := parseConventional_complete _ ("feat".data) false hm
      simp [messageImpact, List.isEmpty_iff, hne, hc1, hc2, hP]
    · intro hm
      have hP := parseConventional_complete _ ("fix".data) false hm
      simp [messageImpact, List.isEmpty_iff, hne, hc1, hc2, hP]
    · intro ty hm hfeat hfix
      have hP := parseConventional_complete _ ty false hm
      simp [messageImpact, List.isEmpty_iff, hne, hc1, hc2, hP, hfeat, hfix]


theorem messageImpact_classification_witness :
    messageImpact "feat!: x" = VersionIncrement.major :=
  (((messageImpact_classification "feat!: x").2.2 (by decide)
      (by decide) (by decide)).2.1) "feat".data
    ⟨[], " x".data, by decide, by decide, by decide, Or.inl rfl,
      ⟨'x', by decide, by decide⟩⟩

/-- Digit character class. -/
def isDigitChar (c : Char) : Bool := '0' ≤ c && c ≤ '9'

/-- Semantic-version identifier character class (alphanumerics and hyphen). -/
def isIdentChar (c : Char) : Bool :=
  isDigitChar c || ('a' ≤ c && c ≤ 'z') || ('A' ≤ c && c ≤ 'Z') || c = '-'

/-- Strict numeric component: nonempty, all digits, no leading zeros. -/
def parseNatStrict (l : List Char) : Option Nat :=
  if l.isEmpty then Option.none
  else if !l.all isDigitChar then Option.none
  else if l.head? = some '0' && l.length != 1 then Option.none
  else some (l.foldl (fun acc c => acc * 10 + (c.toNat - '0'.toNat)) 0)

/-- An immutable semantic version, embedding the final `Version` class of
`src/versioning/version.ts`: the class stores the core as the dotted string
`major.minor.patch` produced by `parse`; the model represents that bare core
string by its numeric triple (the two are in bijection for parsed versions),
together with the prerelease and build component sequences. -/
structure Version where
  major : Nat
  minor : Nat
  patch : Nat
  prerelease : List String
  build : List String
  deriving Repr, DecidableEq

/-- The core string `major.minor.patch` (the class's `base` field). -/
def Version.base (v : Version) : String :=
  toString v.major ++ "." ++ toString v.minor ++ "." ++ toString v.patch

/-- The `tag` getter: `v` plus the core only. -/
def Version.tag (v : Version) : String := "v" ++ v.base

/-- The `toString` method: core, then `-`-joined prerelease if nonempty, then
`+`-joined build if nonempty. -/
def Version.render (v : Version) : String :=
  v.base ++
    (if v.prerelease.isEmpty then "" else "-" ++ String.intercalate "." v.prerelease) ++
    (if v.build.isEmpty then "" else "+" ++ String.intercalate "." v.build)

/-- `withPrerelease`: pure functional replacement of the prerelease. -/
def Version.withPrerelease (v : Version) (prerelease : List String) : Version :=
  { v with prerelease := prerelease }

/-- `withBuild`: pure functional replacement of the build metadata. -/
def Version.withBuild (v : Version) (build : List String) : Version :=
  { v with build := build }

/-- `Version.bump` from `src/versioning/version.ts`: `none` returns the value
itself; otherwise only the core triple changes, by node-semver's `inc` — which
on a bare `major.minor.patch` core (the only shape `parse` ever stores in
`base`) implements the standard increment rules — while the prerelease and
build fields are passed through to the new `Version` unchanged. -/
def Version.bump (v : Version) (change : VersionIncrement) : Version :=
  match change with
  | .none => v
  | .major => ⟨v.major + 1, 0, 0, v.prerelease, v.build⟩
  | .minor => ⟨v.major, v.minor + 1, 0, v.prerelease, v.build⟩
  | .patch => ⟨v.major, v.minor, v.patch + 1, v.prerelease, v.build⟩

/-- Validity of one prerelease identifier under strict node-semver parsing:
nonempty, identifier characters only, and numeric identifiers carry no
leading zeros. -/
def validPreIdent (l : List Char) : Bool :=
  !l.isEmpty && l.all isIdentChar &&
    (if l.all isDigitChar then !(l.head? = some '0' && l.length != 1) else true)

/-- Validity of one build identifier: nonempty identifier characters. -/
def validBuildIdent (l : List Char) : Bool :=
  !l.isEmpty && l.all isIdentChar

/-- `parseVersion` (the module's `parse`): strict node-semver parsing with an
optional leading `v`, returning the core triple plus prerelease and build
component lists; an invalid version throws in the source, modelled as
`Option.none`. -/
def parseVersion (s : String) : Option Version :=
  let l := match s.data with
    | 'v' :: rest => rest
    | l0 => l0
  let beforeBuild := l.takeWhile (fun c => c != '+')
  let buildRest := l.dropWhile (fun c => c != '+')
  let core := beforeBuild.takeWhile (fun c => c != '-')
  let preRest := beforeBuild.dropWhile (fun c => c != '-')
  match core.splitOn '.' with
  | [mj, mn, pt] =>
    match parseNatStrict mj, parseNatStrict mn, parseNatStrict pt with
    | some vmajor, some vminor, some vpatch =>
      let pre : Option (List String) :=
        match preRest with
        | [] => some []
        | _ :: pcs =>
          let parts := pcs.splitOn '.'
          if parts.all validPreIdent then some (parts.map (fun cs => String.mk cs))
          else Option.none
      let build : Option (List String) :=
        match buildRest with
        | [] => some []
        | _ :: bcs =>
          let parts := bcs.splitOn '.'
          if parts.all validBuildIdent then some (parts.map (fun cs => String.mk cs))
          else Option.none
      match pre, build with
      | some prerelease, some buildParts =>
        some ⟨vmajor, vminor, vpatch, prerelease, buildParts⟩
      | _, _ => Option.none
    | _, _, _ => Option.none
  | _ => Option.none

/-- Character class kept verbatim by the sanitizer. -/
def isAllowedChar (c : Char) : Bool :=
  isDigitChar c || ('a' ≤ c && c ≤ 'z') || ('A' ≤ c && c ≤ 'Z') || c = '.' || c = '-'

/-- Scanner for `collapseDisallowed`; the flag records whether the previous
character was part of a disallowed run already replaced by a dash. -/
def collapseDisallowedGo : Bool → List Char → List Char
  | _, [] => []
  | inRun, c :: cs =>
    if isAllowedChar c then c :: collapseDisallowedGo false cs
    else if inRun then collapseDisallowedGo true cs
    else '-' :: collapseDisallowedGo true cs

/-- Replace every maximal run of disallowed characters with a single dash. -/
def collapseDisallowed (l : List Char) : List Char := collapseDisallowedGo false l

/-- Collapse adjacent repeats of the character `a` to a single occurrence. -/
def collapseAdjacent (a : Char) : List Char → List Char
  | [] => []
  | [c] => [c]
  | c :: d :: cs =>
    if c = a && d = a then collapseAdjacent a (d :: cs)
    else c :: collapseAdjacent a (d :: cs)

/-- Strip leading zeros from an all-digit segment, keeping a lone zero. -/
def stripLeadingZerosSeg (seg : List Char) : List Char :=
  if !seg.isEmpty && seg.all isDigitChar then
    let t := seg.dropWhile (fun c => c = '0')
    if t.isEmpty then ['0'] else t
  else seg

/-- Strip leading and trailing dashes from a segment. -/
def stripDashEnds (seg : List Char) : List Char :=
  ((seg.dropWhile (fun c => c = '-')).reverse.dropWhile (fun c => c = '-')).reverse

/-- Modelled from the spec: `sanitiseBranchPrerelease` is imported by the
orchestrator (`performAction` module) from the versioning module, but the
source file defining it is not present under `src/`; this definition follows
the spec's step list in order — truncate to 50 characters, replace slashes
with dots, replace each run of characters outside the allowed class with a
single dash, collapse repeated dots and repeated dashes, split on dots, strip
leading zeros from numeric segments (keeping a lone zero), strip leading and
trailing dashes per segment, drop empty segments, cap to 10 segments, and
prefix the literal segment `branch`. -/
def sanitiseBranchPrerelease (branch : String) : List String :=
  let truncated := branch.data.take 50
  let dotted := truncated.map (fun c => if c = '/' then '.' else c)
  let runs := collapseDisallowed dotted
  let collapsed := collapseAdjacent '-' (collapseAdjacent '.' runs)
  let segments := collapsed.splitOn '.'
  let cleaned := ((segments.map stripLeadingZerosSeg).map stripDashEnds).filter
    (fun seg => !seg.isEmpty)
  "branch" :: (cleaned.take 10).map (fun cs => String.mk cs)

/-- C8.  The branch-name sanitizer: the spec's two stated examples hold (plus
the spec's third test-section example), and for every branch name the result
is the literal segment `branch` followed by at most ten nonempty segments —
for the empty branch name exactly `["branch"]`. -/
theorem sanitiseBranchPrerelease_spec :
    sanitiseBranchPrerelease "" = ["branch"] ∧
    sanitiseBranchPrerelease "fix/some.thing/else" =
      ["branch", "fix", "some", "thing", "else"] ∧
    sanitiseBranchPrerelease "1`2^3_4-5|6 7" = ["branch", "1-2-3-4-5-6-7"] ∧
    ∀ branch : String, ∃ segs : List String,
      sanitiseBranchPrerelease branch = "branch" :: segs ∧ segs.length ≤ 10 ∧
      ∀ seg ∈ segs, seg ≠ "" := by
  refine ⟨by decide, by decide, by decide, ?_⟩
  intro branch
  unfold sanitiseBranchPrerelease
  dsimp only
  refine ⟨_, rfl, ?_, ?_⟩
  · rw [List.length_map, List.length_take]
    exact Nat.min_le_left _ _
  · intro seg hseg
    obtain ⟨cs, hcs, rfl⟩ := List.mem_map.mp hseg
    have hmem := List.mem_of_mem_take hcs
    have hfil := List.of_mem_filter hmem
    intro hcon
    have : cs = [] := by
      have := congrArg String.data hcon
      simpa using this
    rw [this] at hfil
    simp at hfil

/-- C6.  `bump` is core-only: `bump "none"` returns the value itself with
core, prerelease and build all unchanged; `major`/`minor`/`patch` change only
the core triple by the standard semantic-version increment rules, and for
every increment the prerelease and build components of the result are those
of the input.  The spec's concrete law also holds: bumping `1.2.3` by
`major` renders as `2.0.0`. -/
theorem version_bump_core_only (v : Version) :
    v.bump VersionIncrement.none = v ∧
    v.bump VersionIncrement.major = ⟨v.major + 1, 0, 0, v.prerelease, v.build⟩ ∧
    v.bump VersionIncrement.minor = ⟨v.major, v.minor + 1, 0, v.prerelease, v.build⟩ ∧
    v.bump VersionIncrement.patch = ⟨v.major, v.minor, v.patch + 1, v.prerelease, v.build⟩ ∧
    (∀ c : VersionIncrement,
      (v.bump c).prerelease = v.prerelease ∧ (v.bump c).build = v.build) ∧
    ((Version.mk 1 2 3 [] []).bump VersionIncrement.major).render = "2.0.0" := by
  refine ⟨rfl, rfl, rfl, rfl, ?_, by decide⟩
  intro c
  cases c <;> exact ⟨rfl, rfl⟩

/-- Immutable invocation context, from `context.ts` (`part_005`):
repository coordinates, current branch, the configured release-branch set,
and the workflow run number and attempt (strings, used as build metadata). -/
structure Context where
  owner : String
  repo : String
  branch : String
  releaseBranches : List String
  runNumber : String
  runAttempt : String
  deriving Repr, DecidableEq

/-- `inferNextVersion` from the orchestrator (`part_007`, lines 162-172):
bump the last version by the increment when a last version exists, otherwise
parse the default tag (which the source does not bump); then replace the
prerelease with the sanitized branch name on a feature branch or the empty
sequence otherwise, and replace the build with the run number and attempt.
A parse failure throws in the source, modelled as `Option.none`. -/
def inferNextVersion (lastVersion : Option Version) (increment : VersionIncrement)
    (context : Context) (defaultTag : String) (branchIfFeature : Option String) :
    Option Version :=
  let base : Option Version :=
    match lastVersion with
    | some v => some (v.bump increment)
    | Option.none => parseVersion defaultTag
  base.map
    (fun v =>
      (v.withPrerelease (match branchIfFeature with
        | some b => sanitiseBranchPrerelease b
        | Option.none => [])).withBuild [context.runNumber, context.runAttempt])

/-- Concrete context used by counterexamples and witnesses. -/
def sampleContext : Context := ⟨"owner", "repo", "main", ["main"], "7", "2"⟩

/-- C2, counterexample.  With no published release, a `minor` impact and the
default tag `v0.1.0`, the orchestrator's next version keeps the default core
`0.1.0` (the default tag is parsed but not bumped), while the claim's
`bump(default tag, impact)` would give core `0.2.0`; the two disagree. -/
theorem inferNextVersion_default_not_bumped :
    inferNextVersion Option.none VersionIncrement.minor sampleContext "v0.1.0"
        Option.none =
      some ⟨0, 1, 0, [], ["7", "2"]⟩ ∧
    (parseVersion "v0.1.0").map
        (fun v => ((v.bump VersionIncrement.minor).withPrerelease []).withBuild
          ["7", "2"]) =
      some ⟨0, 2, 0, [], ["7", "2"]⟩ ∧
    inferNextVersion Option.none VersionIncrement.minor sampleContext "v0.1.0"
        Option.none ≠
      (parseVersion "v0.1.0").map
        (fun v => ((v.bump VersionIncrement.minor).withPrerelease []).withBuild
          ["7", "2"]) := by
  refine ⟨by decide, by decide, by decide⟩

/-- C2, amended.  On the release-branch path (`branchIfFeature = none`) the
computed next version has prerelease replaced by the empty sequence and build
replaced by the run number and run attempt, and its core is `bump(last
published version, impact)` when a published release exists — but when none
exists it is the parsed configured default tag, unbumped. -/
theorem inferNextVersion_release_branch (lastVersion : Option Version)
    (increment : VersionIncrement) (context : Context) (defaultTag : String)
    (d : Version) (hd : parseVersion defaultTag = some d) :
    (∀ v : Version, lastVersion = some v →
      inferNextVersion lastVersion increment context defaultTag Option.none =
        some ⟨(v.bump increment).major, (v.bump increment).minor,
          (v.bump increment).patch, [], [context.runNumber, context.runAttempt]⟩) ∧
    (lastVersion = Option.none →
      inferNextVersion lastVersion increment context defaultTag Option.none =
        some ⟨d.major, d.minor, d.patch, [],
          [context.runNumber, context.runAttempt]⟩) := by
  constructor
  · rintro v rfl
    simp [inferNextVersion, Version.withPrerelease, Version.withBuild]
  · rintro rfl
    simp [inferNextVersion, hd, Version.withPrerelease, Version.withBuild]

/-- Witness for the amended C2 at the concrete default tag `v0.1.0` with no
published release and a `minor` impact. -/
theorem inferNextVersion_release_branch_witness :
    inferNextVersion Option.none VersionIncrement.minor sampleContext "v0.1.0"
        Option.none =
      some ⟨0, 1, 0, [], ["7", "2"]⟩ :=
  (inferNextVersion_release_branch Option.none VersionIncrement.minor sampleContext
    "v0.1.0" ⟨0, 1, 0, [], []⟩ (by decide)).2 rfl

/-- Wire shape of a pull-request node from the GraphQL query (`part_009`):
merge timestamps are modelled as integer epochs, `null` as `none`. -/
structure PullRequestNode where
  title : String
  number : Nat
  baseRefName : String
  state : String
  mergedAt : Option Int
  deriving Repr, DecidableEq

/-- Domain pull request (`PullRequest` interface in `part_009`). -/
structure PullRequest where
  title : String
  number : Nat
  baseRefName : String
  state : String
  mergedAt : Option Int
  deriving Repr, DecidableEq

/-- `mapPullRequest` from `part_009`: the merge timestamp is kept only for
`MERGED` state and a present timestamp. -/
def mapPullRequest (apiPR : PullRequestNode) : PullRequest :=
  { title := apiPR.title, number := apiPR.number, baseRefName := apiPR.baseRefName,
    state := apiPR.state,
    mergedAt := if apiPR.state = "MERGED" then apiPR.mergedAt else Option.none }

/-- The generator's stop condition (`part_009`, line 156): the mapped item has
a merge timestamp, a cutoff was supplied, and the timestamp is strictly
before the cutoff. -/
def stopsBefore (mergedSince : Option Int) (pr : PullRequest) : Bool :=
  match pr.mergedAt, mergedSince with
  | some t, some c => decide (t < c)
  | _, _ => false

/-- The inner `for` loop of `createPullRequestsGenerator` over one page's
nodes: map each node, stop the whole iteration at the first item strictly
before the cutoff (yielding nothing further), otherwise yield the item.
Returns the yielded items and whether the stop fired. -/
def scanNodes (mergedSince : Option Int) : List PullRequestNode → List PullRequest × Bool
  | [] => ([], false)
  | n :: rest =>
    let pr := mapPullRequest n
    if stopsBefore mergedSince pr then ([], true)
    else
      let step := scanNodes mergedSince rest
      (pr :: step.1, step.2)

/-- The page loop of `createPullRequestsGenerator`, run to completion: each
iteration issues one page request; after scanning a page the loop continues
only if the stop did not fire, the forge reports a further page, and the page
was nonempty.  Returns all yielded items and the number of page requests. -/
def prGenRun (mergedSince : Option Int) : List (List PullRequestNode) → List PullRequest × Nat
  | [] => ([], 1)
  | page :: rest =>
    let scanned := scanNodes mergedSince page
    if scanned.2 then (scanned.1, 1)
    else if rest.isEmpty || page.isEmpty then (scanned.1, 1)
    else
      let tail := prGenRun mergedSince rest
      (scanned.1 ++ tail.1, 1 + tail.2)

lemma scanNodes_no_stop (mergedSince : Option Int) (ns : List PullRequestNode)
    (h : ∀ n ∈ ns, stopsBefore mergedSince (mapPullRequest n) = false) :
    scanNodes mergedSince ns = (ns.map mapPullRequest, false) := by
  induction ns with
  | nil => rfl
  | cons n rest ih =>
      have hn := h n (List.mem_cons_self n rest)
      have hr := ih (fun x hx => h x (List.mem_cons_of_mem n hx))
      simp [scanNodes, hn, hr]

lemma scanNodes_stop_at (mergedSince : Option Int) (ns1 : List PullRequestNode)
    (stopNode : PullRequestNode) (ns2 : List PullRequestNode)
    (h1 : ∀ n ∈ ns1, stopsBefore mergedSince (mapPullRequest n) = false)
    (h2 : stopsBefore mergedSince (mapPullRequest stopNode) = true) :
    scanNodes mergedSince (ns1 ++ stopNode :: ns2) = (ns1.map mapPullRequest, true) := by
  induction ns1 with
  | nil => simp [scanNodes, h2]
  | cons n rest ih =>
      have hn := h1 n (List.mem_cons_self n rest)
      have hr := ih (fun x hx => h1 x (List.mem_cons_of_mem n hx))
      simp [scanNodes, hn, hr]

/-- C4, counterexample.  With cutoff 5 and a single page holding a PR merged
at 10, a merged PR with a missing merge timestamp, a PR merged at 3 and a PR
merged at 10, the generator yields the first two items — including the one
without a merge timestamp, which the claim says is skipped — and stops at the
third. -/
theorem prGen_null_merge_yielded :
    prGenRun (some 5)
        [[⟨"a", 1, "main", "MERGED", some 10⟩,
          ⟨"b", 2, "main", "MERGED", Option.none⟩,
          ⟨"c", 3, "main", "MERGED", some 3⟩,
          ⟨"d", 4, "main", "MERGED", some 10⟩]] =
      ([⟨"a", 1, "main", "MERGED", some 10⟩, ⟨"b", 2, "main", "MERGED", Option.none⟩],
        1) ∧
    (⟨"b", 2, "main", "MERGED", Option.none⟩ : PullRequest).mergedAt = Option.none := by
  refine ⟨by decide, rfl⟩

/-- C4, amended.  For an incoming iteration with a cutoff: at the first item
whose merge timestamp is strictly before the cutoff, iteration stops
immediately — the items after it on its page are not yielded and no further
page is requested — while every earlier item that does not trigger the stop,
in particular any item without a merge timestamp, is yielded (not skipped)
without stopping the iteration. -/
theorem prGen_cutoff_stop (c : Int) (prefixPages : List (List PullRequestNode))
    (page1 page2 : List PullRequestNode) (stopNode : PullRequestNode)
    (restPages : List (List PullRequestNode))
    (hpre : ∀ pg ∈ prefixPages, pg ≠ [])
    (hnostop : ∀ n ∈ prefixPages.flatten ++ page1,
      stopsBefore (some c) (mapPullRequest n) = false)
    (hstop : stopsBefore (some c) (mapPullRequest stopNode) = true) :
    prGenRun (some c) (prefixPages ++ (page1 ++ stopNode :: page2) :: restPages) =
      ((prefixPages.flatten ++ page1).map mapPullRequest, prefixPages.length + 1) := by
  induction prefixPages with
  | nil =>
      have hsc := scanNodes_stop_at (some c) page1 stopNode page2
        (fun n hn => hnostop n (by simpa using hn)) hstop
      simp [prGenRun, hsc]
  | cons pg rest ih =>
      have hsc := scanNodes_no_stop (some c) pg
        (fun n hn => hnostop n (by simp [hn]))
      have hrec := ih (fun x hx => hpre x (List.mem_cons_of_mem pg hx))
        (fun n hn => hnostop n (by
          simp only [List.flatten_cons, List.mem_append] at hn ⊢
          tauto))
      have hpg : pg ≠ [] := hpre pg (List.mem_cons_self pg rest)
      simp only [List.cons_append, prGenRun, hsc, List.append_eq, hrec]
      simp [List.isEmpty_iff, hpg, Nat.add_comm, Nat.add_assoc]

/-- Concrete pull-request nodes used by the C4 witness. -/
def nodeA : PullRequestNode := ⟨"a", 1, "main", "MERGED", some 10⟩

/-- Concrete node with a missing merge timestamp. -/
def nodeB : PullRequestNode := ⟨"b", 2, "main", "MERGED", Option.none⟩

/-- Concrete node merged strictly before the cutoff used by the witness. -/
def nodeC : PullRequestNode := ⟨"c", 3, "main", "MERGED", some 3⟩

/-- Concrete node after the stopping node on the same page. -/
def nodeD : PullRequestNode := ⟨"d", 4, "main", "MERGED", some 10⟩

/-- Concrete node on the never-requested third page. -/
def nodeE : PullRequestNode := ⟨"e", 5, "main", "MERGED", some 10⟩

/-- Witness for the amended C4: one full prefix page, then a page whose
second item (after one item lacking a merge timestamp) is merged before the
cutoff; the run yields the two earlier items and requests exactly two
pages. -/
theorem prGen_cutoff_stop_witness :
    prGenRun (some 5) ([[nodeA]] ++ ([nodeB] ++ nodeC :: [nodeD]) :: [[nodeE]]) =
      ((([[nodeA]] : List (List PullRequestNode)).flatten ++ [nodeB]).map
        mapPullRequest, ([[nodeA]] : List (List PullRequestNode)).length + 1) :=
  prGen_cutoff_stop 5 [[nodeA]] [nodeB] [nodeD] nodeC [[nodeE]]
    (by decide) (by decide) (by decide)

/-- Extract the value of an infallible computation (`ε = Empty`). -/
def exceptEmpty {β : Type} : Except Empty β → β
  | .ok b => b

/-- `inferImpactFromPRs` from `src/version-bump-inference.ts`: classify every
pull-request title and reduce to the maximum impact. -/
def inferImpactFromPRs (prs : List PullRequest) : VersionIncrement :=
  maxImpact (prs.map (fun pr => messageImpact pr.title))

/-- The orchestrator's `lastVersion` computation (`part_007`, line 82/137):
parse the last release's tag when one is present; an unparseable stored tag
throws. -/
def lastVersionOf (lastRelease : Option Release) : Except String (Option Version) :=
  match lastRelease with
  | some r =>
    match r.tagName with
    | some t =>
      match parseVersion t with
      | some v => .ok (some v)
      | Option.none => .error ("Invalid version: " ++ t)
    | Option.none => .ok Option.none
  | Option.none => .ok Option.none

/-- The predicate of `Releases.findLast`: published (non-draft,
non-prerelease) release targeting the branch. -/
def lastReleasePred (targetCommitish : String) (r : Release) : Bool :=
  !r.draft && !r.prerelease && r.targetCommitish == targetCommitish

/-- Narrow forge capability bundle: the item pages its listing endpoints
would serve (keyed by branch), the generated release notes, and the releases
its two mutation endpoints would return. -/
structure Forge where
  releases : List Release
  incomingPages : String → List (List PullRequestNode)
  outgoingPages : String → List (List PullRequestNode)
  releaseNotes : String → String → Option String → String
  createResult : String → String → String → Release
  updateResult : Release → Release

/-- A mutation performed against the forge: `createDraftRelease(context,
tagName, targetCommitish, name)` or `updateRelease(context, release)`. -/
inductive Mutation where
  | create (tagName targetCommitish name : String)
  | update (release : Release)
  deriving Repr, DecidableEq

/-- The `UpsertResult` union from `part_007`, a tagged variant discriminated
by the `action` field. -/
inductive UpsertResult where
  | noUpdate (lastDraft lastRelease : Option Release) (lastVersion : Option Version)
  | versionInference (lastRelease : Option Release) (lastVersion : Option Version)
      (pullRequestTitles : List String) (versionIncrement : VersionIncrement)
      (version : Version)
  | upserted (act : String) (lastDraft lastRelease : Option Release)
      (lastVersion : Option Version) (pullRequestTitles : List String)
      (versionIncrement : VersionIncrement) (version : Version) (release : Release)
  deriving Repr

/-- The `action` discriminator of an `UpsertResult`. -/
def UpsertResult.action : UpsertResult → String
  | .noUpdate _ _ _ => "none"
  | .versionInference _ _ _ _ _ => "version"
  | .upserted act _ _ _ _ _ _ _ => act

/-- `isReleaseBranch` from `part_007`. -/
def isReleaseBranch (context : Context) : Bool :=
  context.releaseBranches.contains context.branch

/-- `inferVersionForFeatureBranch` from `part_007` (lines 117-160): find the
first open outgoing change request from the branch (none means a no-op
result), use its base branch to look up the last published release, collect
the change requests merged since it, classify the feature request together
with them, and compute the next version with the sanitized branch name as
prerelease — performing no mutation.  Thrown errors are `.error`; the second
component is the mutation log. -/
def inferVersionForFeatureBranch (context : Context) (defaultTag : String)
    (forge : Forge) : Except String UpsertResult × List Mutation :=
  match (prGenRun Option.none (forge.outgoingPages context.branch)).1.head? with
  | Option.none => (.ok (.noUpdate Option.none Option.none Option.none), [])
  | some featurePR =>
    let targetBranch := featurePR.baseRefName
    let s0 : CachingAsyncIterable Empty Release := ⟨[], false, forge.releases.map .ok⟩
    let lastRelease := (exceptEmpty (Releases.find (lastReleasePred targetBranch)
      (DEFAULT_PER_PAGE * MAX_PAGES) s0)).1
    match lastVersionOf lastRelease with
    | .error e => (.error e, [])
    | .ok lastVersion =>
      let mergedPullRequests := (prGenRun (lastRelease.bind (·.publishedAt))
        (forge.incomingPages targetBranch)).1
      let prs := featurePR :: mergedPullRequests
      let titles := prs.map (·.title)
      let versionIncrement := inferImpactFromPRs prs
      match inferNextVersion lastVersion versionIncrement context defaultTag
          (some context.branch) with
      | Option.none => (.error ("Invalid version: " ++ defaultTag), [])
      | some nextVersion =>
        (.ok (.versionInference lastRelease lastVersion titles versionIncrement
          nextVersion), [])

/-- `upsertDraftReleaseForReleaseBranch` from `part_007` (lines 73-115): the
draft and published-release lookups run sequentially over one shared caching
sequence; zero merged change requests is a no-op; otherwise classify, compute
the next version, and perform exactly one update (when a draft exists, with
forge-generated notes) or create mutation. -/
def upsertDraftReleaseForReleaseBranch (context : Context) (defaultTag : String)
    (forge : Forge) : Except String UpsertResult × List Mutation :=
  let s0 : CachingAsyncIterable Empty Release := ⟨[], false, forge.releases.map .ok⟩
  let draftStep := exceptEmpty (Releases.findLastDraft context.branch s0)
  let lastDraft := draftStep.1
  let lastRelease := (exceptEmpty (Releases.find (lastReleasePred context.branch)
    (DEFAULT_PER_PAGE * MAX_PAGES) draftStep.2)).1
  match lastVersionOf lastRelease with
  | .error e => (.error e, [])
  | .ok lastVersion =>
    let pullRequests := (prGenRun (lastRelease.bind (·.publishedAt))
      (forge.incomingPages context.branch)).1
    if pullRequests.isEmpty then
      (.ok (.noUpdate lastDraft lastRelease lastVersion), [])
    else
      let versionIncrement := inferImpactFromPRs pullRequests
      match inferNextVersion lastVersion versionIncrement context defaultTag
          Option.none with
      | Option.none => (.error ("Invalid version: " ++ defaultTag), [])
      | some nextVersion =>
        match lastDraft with
        | some existingDraft =>
          let body := forge.releaseNotes nextVersion.tag context.branch
            (lastRelease.bind (·.tagName))
          let request : Release := { existingDraft with
            name := some nextVersion.tag, tagName := some nextVersion.tag,
            body := some body }
          (.ok (.upserted "updated" lastDraft lastRelease lastVersion
            (pullRequests.map (·.title)) versionIncrement nextVersion
            (forge.updateResult request)), [.update request])
        | Option.none =>
          (.ok (.upserted "created" lastDraft lastRelease lastVersion
            (pullRequests.map (·.title)) versionIncrement nextVersion
            (forge.createResult nextVersion.tag context.branch nextVersion.tag)),
            [.create nextVersion.tag context.branch nextVersion.tag])

/-- `performAction` from `part_007`: dispatch on whether the current branch
is a configured release branch. -/
def performAction (context : Context) (defaultTag : String) (forge : Forge) :
    Except String UpsertResult × List Mutation :=
  if isReleaseBranch context then
    upsertDraftReleaseForReleaseBranch context defaultTag forge
  else inferVersionForFeatureBranch context defaultTag forge

lemma findPull_some_mem {ε : Type} (p : Release → Bool) (maxReleases : Nat) :
    ∀ (items : List Release) (count : Nat) (cache : List Release) (r : Release)
      (s1 : CachingAsyncIterable ε Release),
      findPull p maxReleases count cache (items.map .ok) = .ok (some r, s1) →
      r ∈ items := by
  intro items
  induction items with
  | nil =>
      intro count cache r s1 h
      simp [findPull] at h
  | cons a rest ih =>
      intro count cache r s1 h
      simp only [List.map_cons, findPull] at h
      by_cases hp : p a = true
      · rw [if_pos hp] at h
        have h1 : some a = some r := by
          have := congrArg (fun x => match x with
            | Except.ok (o, _) => o
            | Except.error _ => Option.none) h
          simpa using this
        simp at h1
        simp [h1]
      · rw [if_neg hp] at h
        by_cases hm : maxReleases ≤ count + 1
        · rw [if_pos hm] at h
          simp at h
        · rw [if_neg hm] at h
          exact List.mem_cons_of_mem a (ih (count + 1) (cache ++ [a]) r s1 h)

lemma releases_find_fresh_some_mem {ε : Type} (p : Release → Bool)
    (maxReleases : Nat) (items : List Release) (r : Release)
    (s1 : CachingAsyncIterable ε Release)
    (h : Releases.find p maxReleases ⟨[], false, items.map .ok⟩ = .ok (some r, s1)) :
    r ∈ items := by
  rw [Releases.find] at h
  simp only [findReplay, Bool.false_eq_true, if_false] at h
  exact findPull_some_mem p maxReleases items 0 [] r s1 h

/-- C7.  On a branch outside the configured release-branch set,
`performAction` performs no create-release or update-release mutation (the
mutation log is empty in every case, including thrown errors), the outcome is
the `none` no-op result when no open outgoing change request from the branch
exists, and whenever an open outgoing change request exists (and the stored
tags and default tag are parseable, so the run completes), the outcome's
action is `version`. -/
theorem performAction_feature_branch (context : Context) (defaultTag : String)
    (forge : Forge) (hbranch : context.branch ∉ context.releaseBranches) :
    (performAction context defaultTag forge).2 = [] ∧
    ((prGenRun Option.none (forge.outgoingPages context.branch)).1.head? =
        Option.none →
      (performAction context defaultTag forge).1 =
        .ok (.noUpdate Option.none Option.none Option.none)) ∧
    (∀ pr : PullRequest,
      (prGenRun Option.none (forge.outgoingPages context.branch)).1.head? = some pr →
      parseVersion defaultTag ≠ Option.none →
      (∀ rl ∈ forge.releases, ∀ t : String, rl.tagName = some t →
        parseVersion t ≠ Option.none) →
      ∃ res : UpsertResult, (performAction context defaultTag forge).1 = .ok res ∧
        res.action = "version") := by
  have hrb : isReleaseBranch context = false := by
    simpa [isReleaseBranch] using hbranch
  have hpa : performAction context defaultTag forge =
      inferVersionForFeatureBranch context defaultTag forge := by
    simp [performAction, hrb]
  refine ⟨?_, ?_, ?_⟩
  · rw [hpa]
    unfold inferVersionForFeatureBranch
    cases hh : (prGenRun Option.none (forge.outgoingPages context.branch)).1.head? with
    | none => simp
    | some pr =>
        dsimp only
        split
        · rfl
        · split
          · rfl
          · rfl
  · intro hh
    rw [hpa]
    unfold inferVersionForFeatureBranch
    rw [hh]
  · intro pr hh hdt htags
    rw [hpa]
    unfold inferVersionForFeatureBranch
    rw [hh]
    dsimp only
    rcases hfind : Releases.find (lastReleasePred pr.baseRefName)
        (DEFAULT_PER_PAGE * MAX_PAGES)
        (⟨[], false, forge.releases.map .ok⟩ : CachingAsyncIterable Empty Release)
      with e | ⟨o, s1⟩
    · exact absurd hfind (by cases e)
    · dsimp only [exceptEmpty]
      cases o with
      | none =>
          obtain ⟨d, hd⟩ := Option.ne_none_iff_exists'.mp hdt
          simp only [lastVersionOf, Option.bind]
          simp only [inferNextVersion, hd, Option.map_some']
          exact ⟨_, rfl, rfl⟩
      | some rel =>
          have hmem : rel ∈ forge.releases :=
            releases_find_fresh_some_mem _ _ _ _ _ hfind
          cases hrtag : rel.tagName with
          | none =>
              obtain ⟨d, hd⟩ := Option.ne_none_iff_exists'.mp hdt
              simp only [lastVersionOf, hrtag]
              simp only [inferNextVersion, hd, Option.map_some']
              exact ⟨_, rfl, rfl⟩
          | some t =>
              obtain ⟨v, hv⟩ := Option.ne_none_iff_exists'.mp (htags rel hmem t hrtag)
              simp only [lastVersionOf, hrtag, hv]
              simp only [inferNextVersion, Option.map_some']
              exact ⟨_, rfl, rfl⟩

/-- Concrete feature-branch context for the C7 witness. -/
def featureContext : Context := ⟨"owner", "repo", "feature", ["main"], "7", "2"⟩

/-- Concrete forge for the C7 witness: one published release on `main` and
one open outgoing change request from `feature` to `main`. -/
def sampleForge : Forge :=
  { releases := [sampleRelease 0]
    incomingPages := fun _ => []
    outgoingPages := fun b =>
      if b = "feature" then [[⟨"feat: add", 9, "main", "OPEN", Option.none⟩]] else []
    releaseNotes := fun _ _ _ => "notes"
    createResult := fun _ targetCommitish name =>
      ⟨100, Option.none, targetCommitish, some name, Option.none, Option.none, true,
        false⟩
    updateResult := fun r => r }

/-- Witness for C7 at a concrete feature-branch invocation with an open
outgoing change request: the run succeeds with action `version`. -/
theorem performAction_feature_branch_witness :
    ∃ res : UpsertResult,
      (performAction featureContext "v0.1.0" sampleForge).1 = .ok res ∧
      res.action = "version" :=
  (performAction_feature_branch featureContext "v0.1.0" sampleForge (by decide)).2.2
    (mapPullRequest ⟨"feat: add", 9, "main", "OPEN", Option.none⟩) (by decide)
    (by decide)
    (by
      intro rl hrl t ht
      obtain rfl : rl = sampleRelease 0 := by simpa [sampleForge] using hrl
      have htag : (sampleRelease 0).tagName = some "v1.0.0" := rfl
      rw [htag] at ht
      obtain rfl : "v1.0.0" = t := by simpa using ht
      decide)
